import Mathlib

/-!
Verification of the DelayInput typing tool (src/DelayInput.py).

The development shallowly embeds the program's core:

* `TypingWorker` (the background emission loop `run`, its helpers
  `_is_fast_char`, `_safe_write`, `_fast_type_chunk`, `_check_focus`,
  `_type_char`, and the bound-swapping constructor `__init__`), and
* the `MainWindow` controller functions `_cancel_typing`, `_resume_typing`
  and `_on_hotkey_committed` (with `_canonicalize_sequence`).

Modelling conventions:

* Strings typed into the OS are `List Char`; the worker's text is a
  `List Char` and indices are `Nat`.
* The observable behaviour of one `run` invocation is a trace
  (`List Event`) of emitted keystrokes, progress signals, inter-unit
  sleeps and the terminal signal (`finished` / `stopped` / `error`).
* Interaction with the outside world is an oracle (`IterEnv`, one record
  per loop iteration): the values read from the cross-thread `_stop_flag`
  and `_pause_flag` at each read site, the result of the
  `getActiveWindowTitle` query (which may raise), whether the
  `keyboard.write` primitive raises for this unit, whether the fallback
  `pyautogui` primitive raises (carrying the exception message), the raw
  randomness consumed by `random.randint`, and an optional retargeting of
  `target_window_title` performed by a resume between iterations.
  The worker's own write of `_pause_flag` in `_check_focus` is threaded
  explicitly: the pause-idle loop is entered exactly when the flag is
  true after `_check_focus`, and the oracle decides whether that loop
  exits because the flag was cleared (`resume`) or because `_stop_flag`
  became true.
* Recursion is fuel-based; `none` means the invocation had not returned
  within the given fuel (e.g. a pause held forever).  Every theorem about
  a completed invocation is conditioned on `= some trace`.
* `random.randint a b` is modelled by its contract: an arbitrary value of
  the *inclusive* range `[a, b]`, realised as `a + r % (b - a + 1)` for an
  oracle-supplied `r`.
* The progress percentage `int(i / length * 100)` is modelled by the exact
  integer truncation `i * 100 / length` (Nat division); float arithmetic
  is idealised as exact rational arithmetic here.
-/

namespace DelayInput

/-- Observable actions of one `TypingWorker.run` invocation: literal writes
(`keyboard.write` / `pyautogui.write`), named key presses
(`pyautogui.press`), progress signals, inter-unit sleeps, the
focus-loss pause notification, and the three terminal signals. -/
inductive Event where
  | write (s : List Char)
  | press (k : String)
  | progress (p : Nat)
  | delay (ms : Nat)
  | focusPaused
  | finished
  | stopped
  | error (msg : String)
deriving DecidableEq, Repr

/-- Result of one `pyautogui.getActiveWindowTitle()` call: the call may
raise (`fail`), or return `None` (`ret none`) or a title string. -/
inductive FocusRes where
  | fail
  | ret (t : Option String)
deriving DecidableEq, Repr

/-- Oracle record for one iteration of the `run` loop: every value the
worker reads from the outside world during that iteration. -/
structure IterEnv where
  /-- `_stop_flag` as read by the `if self._stop_flag` at the top of the loop. -/
  stopTop : Bool
  /-- `_stop_flag` as read inside the `_check_focus` guard. -/
  stopCF : Bool
  /-- `_pause_flag` as read inside the `_check_focus` guard (true iff an
  external `pause()` happened before this iteration's check). -/
  pauseCF : Bool
  /-- result of the `getActiveWindowTitle` query in `_check_focus`. -/
  focus : FocusRes
  /-- when the pause-idle loop is entered: true iff it exits because
  `_stop_flag` became true, false iff it exits because `_pause_flag` was
  cleared by `resume()`. -/
  loopExitStop : Bool
  /-- `_stop_flag` as read by the `if self._stop_flag` after the pause loop
  (when the loop was not entered or exited by resume). -/
  stopAfter : Bool
  /-- whether `keyboard.write` raises for this unit's write. -/
  kbFail : Bool
  /-- whether the `pyautogui` fallback primitive (write or press) raises,
  and with which message. -/
  pgFail : Option String
  /-- raw randomness consumed by `random.randint` for this unit. -/
  rand : Nat
  /-- `set_target_window` performed by a resume before this iteration:
  `some t` replaces `target_window_title` by `t`. -/
  retarget : Option String

/-- `TypingWorker._is_fast_char`: newline and tab are not fast; otherwise
fast iff the code point is at least 32. -/
def isFastChar (ch : Char) : Bool :=
  if ch = '\n' ∨ ch = '\t' then false else decide (32 ≤ ch.toNat)

/-- `TypingWorker._safe_write`: try `keyboard.write(text)`; on exception
fall back to `pyautogui.write(text)`.  Both are literal writes; if the
fallback also raises, the exception propagates. -/
def safeWrite (kbFail : Bool) (pgFail : Option String) (s : List Char) :
    Except String (List Event) :=
  if kbFail then
    match pgFail with
    | none => .ok [.write s]
    | some m => .error m
  else .ok [.write s]

/-- `TypingWorker._fast_type_chunk`: write the chunk if it is non-empty. -/
def fastTypeChunk (kbFail : Bool) (pgFail : Option String) (s : List Char) :
    Except String (List Event) :=
  if s.isEmpty then .ok [] else safeWrite kbFail pgFail s

/-- `TypingWorker._type_char`: newline and tab are written via
`keyboard.write`, falling back to `pyautogui.press("enter"/"tab")` on
exception; control characters below 32 map code 8 to the backspace key
press and code 27 to the escape key press and are otherwise skipped;
all other characters go through `_safe_write`. -/
def typeChar (kbFail : Bool) (pgFail : Option String) (ch : Char) :
    Except String (List Event) :=
  if ch = '\n' then
    if kbFail then
      match pgFail with
      | none => .ok [.press "enter"]
      | some m => .error m
    else .ok [.write ['\n']]
  else if ch = '\t' then
    if kbFail then
      match pgFail with
      | none => .ok [.press "tab"]
      | some m => .error m
    else .ok [.write ['\t']]
  else if ch.toNat < 32 then
    if ch.toNat = 8 then
      match pgFail with
      | none => .ok [.press "backspace"]
      | some m => .error m
    else if ch.toNat = 27 then
      match pgFail with
      | none => .ok [.press "esc"]
      | some m => .error m
    else .ok []
  else safeWrite kbFail pgFail [ch]

/-- Python falsiness of an optional window-title string: `None` and the
empty string are falsy. -/
def optFalsy : Option String → Bool
  | none => true
  | some s => s.isEmpty

/-- `TypingWorker._check_focus`: no-op when there is no target title or a
stop/pause flag is already set; no-op when the title query raises;
otherwise an empty or mismatching foreground title sets `_pause_flag`
and emits `focus_paused`.  Returns the resulting pause flag and the
emitted events. -/
def checkFocus (target : Option String) (stopF pauseF : Bool) (fr : FocusRes) :
    Bool × List Event :=
  if optFalsy target || stopF || pauseF then (pauseF, [])
  else
    match fr with
    | .fail => (pauseF, [])
    | .ret t => if optFalsy t || t != target then (true, [.focusPaused]) else (pauseF, [])

/-- Worker configuration: the fields set by `TypingWorker.__init__`. -/
structure Config where
  text : List Char
  baseDelayMs : Nat
  useRandom : Bool
  randMinMs : Nat
  randMaxMs : Nat
  target : Option String
deriving Repr

/-- `TypingWorker.__init__`: stores the fields, swapping the jitter bounds
when `rand_max_ms < rand_min_ms`. -/
def TypingWorker.init (text : List Char) (base : Nat) (useRandom : Bool)
    (rmin rmax : Nat) (target : Option String) : Config :=
  if rmax < rmin then ⟨text, base, useRandom, rmax, rmin, target⟩
  else ⟨text, base, useRandom, rmin, rmax, target⟩

/-- Contract model of `random.randint a b`: a value of the inclusive range
`[a, b]`, chosen by the oracle value `r`. -/
def randint (a b r : Nat) : Nat := a + r % (b - a + 1)

/-- The fast-path condition computed before the loop:
`base_delay_ms == 0 and not use_random`. -/
def fastMode (cfg : Config) : Bool :=
  decide (cfg.baseDelayMs = 0) && !cfg.useRandom

/-- The chunk-collecting inner while loop of the fast path: take
consecutive fast characters, at most `n` (the source's `max_chunk = 40`). -/
def collectChunk : Nat → List Char → List Char
  | 0, _ => []
  | _ + 1, [] => []
  | n + 1, c :: rest => if isFastChar c then c :: collectChunk n rest else []

/-- Effective `target_window_title` at an iteration: the previous value
unless a resume retargeted the worker. -/
def retargetOf (e : IterEnv) (tgt : Option String) : Option String :=
  match e.retarget with
  | none => tgt
  | some t => some t

/-- The `_check_focus` call of one iteration, on that iteration's oracle. -/
def focusStep (e : IterEnv) (tgt : Option String) : Bool × List Event :=
  checkFocus (retargetOf e tgt) e.stopCF e.pauseCF e.focus

/-- The chunk the fast path collects at cursor `i`: up to 40 consecutive
fast characters starting at `i`. -/
def chunkAt (cfg : Config) (i : Nat) : List Char :=
  collectChunk 40 (cfg.text.drop i)

/-- One unit of emission at cursor `i`: in fast mode on a fast character, a
batched chunk write; otherwise `_type_char` on the single character.
Returns the emitted events and the new cursor. -/
def iterUnit (cfg : Config) (e : IterEnv) (i : Nat) :
    Except String (List Event × Nat) :=
  if fastMode cfg && isFastChar (cfg.text.getD i ' ') then
    match fastTypeChunk e.kbFail e.pgFail (chunkAt cfg i) with
    | .ok evs => .ok (evs, i + (chunkAt cfg i).length)
    | .error m => .error m
  else
    match typeChar e.kbFail e.pgFail (cfg.text.getD i ' ') with
    | .ok evs => .ok (evs, i + 1)
    | .error m => .error m

/-- The per-unit sleep duration of the paced path, as a function of the
randomness `r` consumed: `base_delay_ms` plus, with `use_random`, a
`randint` jitter. -/
def delayVal (cfg : Config) (r : Nat) : Nat :=
  cfg.baseDelayMs +
    (if cfg.useRandom then randint cfg.randMinMs cfg.randMaxMs r else 0)

/-- The per-unit sleep duration of one iteration. -/
def delayMs (cfg : Config) (e : IterEnv) : Nat := delayVal cfg e.rand

/-- The end-of-iteration sleep: nothing in fast mode; in the paced path a
sleep of `delayMs`, and only when that total is positive. -/
def delayEvents (cfg : Config) (e : IterEnv) : List Event :=
  if fastMode cfg then []
  else if 0 < delayMs cfg e then [.delay (delayMs cfg e)] else []

/-- The `while i < length` loop of `TypingWorker.run`, fuel-based.
Per iteration: retarget, top stop check, `_check_focus`, the pause-idle
loop (entered iff the pause flag is set; exiting by stop leads to the
post-loop stop check observing true), the post-loop stop check, one unit
of emission (whose exception is caught by `run`'s `try` and reported as
`error`), the progress signal for the new cursor, and the paced-path
sleep. -/
def runLoop (cfg : Config) :
    (Nat → IterEnv) → Option String → Nat → Nat → Option (List Event)
  | _, _, _, 0 => none
  | env, tgt, i, fuel + 1 =>
    if i < cfg.text.length then
      if (env 0).stopTop then some [.stopped]
      else
        if (focusStep (env 0) tgt).1 && (env 0).loopExitStop then
          some ((focusStep (env 0) tgt).2 ++ [.stopped])
        else if (env 0).stopAfter then
          some ((focusStep (env 0) tgt).2 ++ [.stopped])
        else
          match iterUnit cfg (env 0) i with
          | .error m => some ((focusStep (env 0) tgt).2 ++ [.error m])
          | .ok (evs, j) =>
            (runLoop cfg (fun n => env (n + 1)) (retargetOf (env 0) tgt) j fuel).map
              (fun rest =>
                (focusStep (env 0) tgt).2 ++ evs ++
                  .progress (j * 100 / cfg.text.length) :: (delayEvents cfg (env 0) ++ rest))
    else some [.finished]

/-- `TypingWorker.run`: empty text finishes immediately; otherwise the
emission loop starts at cursor 0 with the captured target title. -/
def TypingWorker.run (cfg : Config) (env : Nat → IterEnv) (fuel : Nat) :
    Option (List Event) :=
  if cfg.text.length = 0 then some [.finished]
  else runLoop cfg env cfg.target 0 fuel

/-- Classification of trace events. -/
def isTerminal : Event → Bool
  | .finished => true
  | .stopped => true
  | .error _ => true
  | _ => false

/-- An emission event: a literal write or a key press. -/
def isEmission : Event → Bool
  | .write _ => true
  | .press _ => true
  | _ => false

/-- A progress event. -/
def isProg : Event → Bool
  | .progress _ => true
  | _ => false

/-- The list of reported progress values of a trace, in order. -/
def progVals : List Event → List Nat
  | [] => []
  | .progress p :: rest => p :: progVals rest
  | _ :: rest => progVals rest

/-- Every emission event of the trace is followed, later in the trace, by
some progress event. -/
def covered : List Event → Bool
  | [] => true
  | e :: rest => (!isEmission e || rest.any isProg) && covered rest

/-! Controller (`MainWindow`) state and commands used by the claims. -/

/-- The `MainWindow` state constants. -/
inductive UiState where
  | idle
  | countdown
  | typing
  | paused
deriving DecidableEq, Repr

/-- `MainWindow._cancel_typing`: no-op when idle; countdown cancels to idle
without any worker signal; typing/paused call `worker.stop()` (when a
worker exists) and go idle.  The boolean records whether `stop()` was
signalled to the worker. -/
def cancelTyping (st : UiState) (hasWorker : Bool) : UiState × Bool :=
  match st with
  | .idle => (.idle, false)
  | .countdown => (.idle, false)
  | .typing => (.idle, hasWorker)
  | .paused => (.idle, hasWorker)

/-- Controller-side session fields read and written by `_resume_typing`. -/
structure UiSession where
  state : UiState
  hasWorker : Bool
  workerPaused : Bool
  workerTarget : Option String
deriving DecidableEq, Repr

/-- Outcome of a `_resume_typing` attempt. -/
inductive ResumeOutcome where
  | ignored
  | errNoWindow
  | errSelfFocus
  | resumed
deriving DecidableEq, Repr

/-- `MainWindow._resume_typing`: guarded on a live worker in the Paused
state; a raising or falsy foreground query reports a no-window error and
changes nothing; a foreground equal to the tool's own window title
reports a self-focus error and changes nothing; otherwise the worker is
retargeted to the current foreground, resumed, and the state becomes
Typing. -/
def resumeTyping (s : UiSession) (selfTitle : String) (query : FocusRes) :
    UiSession × ResumeOutcome :=
  if s.hasWorker && s.state == .paused then
    let cw : Option String :=
      match query with
      | .fail => none
      | .ret t => t
    match cw with
    | none => (s, .errNoWindow)
    | some w =>
      if w.isEmpty then (s, .errNoWindow)
      else if w == selfTitle then (s, .errSelfFocus)
      else ({ s with state := .typing, workerPaused := false, workerTarget := some w },
            .resumed)
  else (s, .ignored)

/-! Hotkey commit validation (`MainWindow._on_hotkey_committed` and
`MainWindow._canonicalize_sequence`).  Tokens are `List Char` — the
shallow embedding of Python strings — so that every operation is
structurally recursive and computable. -/

/-- The whitespace set of Python's `str.strip`. -/
def isWhite (c : Char) : Bool :=
  c = ' ' || c = '\t' || c = '\n' || c = '\r' || c = '\x0b' || c = '\x0c'

/-- Python `str.strip()`: drop whitespace from both ends. -/
def pyStrip (l : List Char) : List Char :=
  ((l.dropWhile isWhite).reverse.dropWhile isWhite).reverse

/-- Python `str.split("+")`: cut at every `+`, keeping empty pieces. -/
def splitPlusAux : List Char → List Char → List (List Char)
  | [], acc => [acc.reverse]
  | c :: rest, acc =>
    if c = '+' then acc.reverse :: splitPlusAux rest []
    else splitPlusAux rest (c :: acc)

/-- Python `str.split("+")` on a token list. -/
def splitPlus (l : List Char) : List (List Char) := splitPlusAux l []

/-- Python `str.lower()` (ASCII case folding as in `Char.toLower`). -/
def toLowerL (l : List Char) : List Char := l.map Char.toLower

/-- Python `"+".join(parts)`. -/
def joinPlus : List (List Char) → List Char
  | [] => []
  | [x] => x
  | x :: xs => x ++ '+' :: joinPlus xs

/-- The token list both validation and canonicalisation build: split on
`+`, strip each piece, drop empties. -/
def hotkeyParts (l : List Char) : List (List Char) :=
  ((splitPlus l).map pyStrip).filter (fun p => !p.isEmpty)

/-- One token of `_canonicalize_sequence`: known modifier spellings are
canonicalised, everything else is lowercased. -/
def canonicalToken (p : List Char) : List Char :=
  if toLowerL p = "ctrl".toList ∨ toLowerL p = "control".toList then "ctrl".toList
  else if toLowerL p = "shift".toList then "shift".toList
  else if toLowerL p = "alt".toList ∨ toLowerL p = "menu".toList then "alt".toList
  else if toLowerL p = "win".toList ∨ toLowerL p = "windows".toList ∨
      toLowerL p = "meta".toList ∨ toLowerL p = "super".toList then "windows".toList
  else toLowerL p

/-- `MainWindow._canonicalize_sequence`: canonicalise each token and rejoin
with `+`. -/
def canonicalizeSequence (l : List Char) : List Char :=
  joinPlus ((hotkeyParts l).map canonicalToken)

/-- The modifier test on the lowered first token:
`first in ("ctrl", "control", "shift", "alt")`. -/
def isModTok (t : List Char) : Bool :=
  t = "ctrl".toList || t = "control".toList || t = "shift".toList || t = "alt".toList

/-- The source's function-key test on the last token:
`main_low.startswith("f") and main_low[1:].isdigit()`. -/
def isFKeyToken (t : List Char) : Bool :=
  (toLowerL t).headD ' ' = 'f' && !((toLowerL t).drop 1).isEmpty &&
    ((toLowerL t).drop 1).all Char.isDigit

/-- `MainWindow._on_hotkey_committed`: reject when nothing was pressed or
no main key was captured; reject fewer than two tokens; reject unless
the lowered first token is ctrl/control/shift/alt; reject unless the
last token is a single character or passes the function-key test;
otherwise canonicalise, and re-register only when the result differs
from the current binding.  `some c` means the binding is replaced by
`c`; `none` means the prior binding is retained unchanged. -/
def onHotkeyCommitted (seqStr : List Char) (hasMainKey : Bool)
    (currentHotkey : List Char) : Option (List Char) :=
  if (pyStrip seqStr).isEmpty || !hasMainKey then none
  else if (hotkeyParts (pyStrip seqStr)).length < 2 then none
  else if !isModTok (toLowerL ((hotkeyParts (pyStrip seqStr)).headD [])) then none
  else if !(decide (((hotkeyParts (pyStrip seqStr)).getLastD []).length = 1) ||
      isFKeyToken ((hotkeyParts (pyStrip seqStr)).getLastD [])) then none
  else if canonicalizeSequence (pyStrip seqStr) = currentHotkey then none
  else some (canonicalizeSequence (pyStrip seqStr))

/-- The claim's reading of a function-key token: `F1` … `F24` only. -/
def isClaimFKey (t : List Char) : Bool :=
  (["f1", "f2", "f3", "f4", "f5", "f6", "f7", "f8", "f9", "f10", "f11",
    "f12", "f13", "f14", "f15", "f16", "f17", "f18", "f19", "f20", "f21",
    "f22", "f23", "f24"].map String.toList).contains (toLowerL t)

/-! Concrete configurations and oracles used by the witnesses below. -/

/-- A benign oracle iteration: no flags set, focus matches target "T", no
primitive failures. -/
def benignEnv : IterEnv :=
  { stopTop := false, stopCF := false, pauseCF := false,
    focus := .ret (some "T"), loopExitStop := false, stopAfter := false,
    kbFail := false, pgFail := none, rand := 0, retarget := none }

/-- The oracle of an iteration whose focus query sees a different window. -/
def envMismatch : IterEnv := { benignEnv with focus := .ret (some "U") }

/-- The oracle of an iteration whose emission primitives both raise. -/
def envRaise : IterEnv := { benignEnv with kbFail := true, pgFail := some "boom" }

/-- The oracle of an iteration that observes the stop flag at the top. -/
def envStopped : IterEnv := { benignEnv with stopTop := true }

/-- The spec's demonstration configuration: text "ab\nc", zero delay, no
jitter, target title "T". -/
def cfgDemo : Config := ⟨['a', 'b', '\n', 'c'], 0, false, 5, 10, some "T"⟩

/-- The trace of `run` on `cfgDemo` under the benign oracle. -/
def trDemo : List Event :=
  [.write ['a', 'b'], .progress 50, .write ['\n'], .progress 75,
   .write ['c'], .progress 100, .finished]

/-- A paced two-character configuration: text "ab", 50 ms base delay. -/
def cfgPaced : Config := ⟨['a', 'b'], 50, false, 0, 0, some "T"⟩

end DelayInput

namespace DelayInput

/-! Helper lemmas about the building blocks. -/

theorem collectChunk_eq_takeWhile_take (n : Nat) (l : List Char) :
    collectChunk n l = (l.takeWhile isFastChar).take n := by
  induction n generalizing l with
  | zero => simp [collectChunk]
  | succ n ih =>
    cases l with
    | nil => simp [collectChunk]
    | cons c rest =>
      by_cases h : isFastChar c
      · simp [collectChunk, List.takeWhile_cons, h, ih]
      · simp [collectChunk, List.takeWhile_cons, h]

theorem collectChunk_length_le (n : Nat) (l : List Char) :
    (collectChunk n l).length ≤ n := by
  rw [collectChunk_eq_takeWhile_take]
  simp [List.length_take]

theorem length_takeWhile_le_self (p : Char → Bool) (l : List Char) :
    (l.takeWhile p).length ≤ l.length := by
  induction l with
  | nil => simp
  | cons c rest ih =>
    rw [List.takeWhile_cons]
    split
    · simpa using ih
    · simp

theorem collectChunk_length_le_list (n : Nat) (l : List Char) :
    (collectChunk n l).length ≤ l.length := by
  rw [collectChunk_eq_takeWhile_take]
  have h1 : ((l.takeWhile isFastChar).take n).length ≤ (l.takeWhile isFastChar).length := by
    simp [List.length_take]
  exact le_trans h1 (length_takeWhile_le_self _ _)

theorem collectChunk_cons_fast {c : Char} (h : isFastChar c = true)
    (n : Nat) (l : List Char) :
    collectChunk (n + 1) (c :: l) = c :: collectChunk n l := by
  simp [collectChunk, h]

theorem safeWrite_ok_events {kb : Bool} {pg : Option String} {s : List Char}
    {evs : List Event} (h : safeWrite kb pg s = .ok evs) :
    evs = [.write s] := by
  unfold safeWrite at h
  split at h
  · split at h
    · injection h with h; exact h.symm
    · cases h
  · injection h with h; exact h.symm

theorem fastTypeChunk_ok_events {kb : Bool} {pg : Option String} {s : List Char}
    {evs : List Event} (h : fastTypeChunk kb pg s = .ok evs) :
    evs = [] ∨ evs = [.write s] := by
  unfold fastTypeChunk at h
  split at h
  · injection h with h; exact .inl h.symm
  · exact .inr (safeWrite_ok_events h)

theorem typeChar_ok_events {kb : Bool} {pg : Option String} {ch : Char}
    {evs : List Event} (h : typeChar kb pg ch = .ok evs) :
    ∀ ev ∈ evs, isEmission ev = true := by
  unfold typeChar at h
  split at h
  · split at h
    · split at h
      · injection h with h; subst h; simp [isEmission]
      · cases h
    · injection h with h; subst h; simp [isEmission]
  · split at h
    · split at h
      · split at h
        · injection h with h; subst h; simp [isEmission]
        · cases h
      · injection h with h; subst h; simp [isEmission]
    · split at h
      · split at h
        · split at h
          · injection h with h; subst h; simp [isEmission]
          · cases h
        · split at h
          · split at h
            · injection h with h; subst h; simp [isEmission]
            · cases h
          · injection h with h; subst h; simp
      · have := safeWrite_ok_events h
        subst this; simp [isEmission]

theorem focusStep_snd (e : IterEnv) (tgt : Option String) :
    (focusStep e tgt).2 = [] ∨ (focusStep e tgt).2 = [.focusPaused] := by
  unfold focusStep checkFocus
  split
  · exact .inl rfl
  · split
    · exact .inl rfl
    · split
      · exact .inr rfl
      · exact .inl rfl

theorem isEmission_not_terminal {ev : Event} (h : isEmission ev = true) :
    isTerminal ev = false := by
  cases ev <;> simp_all [isEmission, isTerminal]

theorem isEmission_not_prog {ev : Event} (h : isEmission ev = true) :
    isProg ev = false := by
  cases ev <;> simp_all [isEmission, isProg]

theorem randint_bounds {a b : Nat} (h : a ≤ b) (r : Nat) :
    a ≤ randint a b r ∧ randint a b r ≤ b := by
  refine ⟨Nat.le_add_right a _, ?_⟩
  unfold randint
  have hm : r % (b - a + 1) < b - a + 1 := Nat.mod_lt _ (Nat.succ_pos _)
  omega

theorem delayEvents_shape (cfg : Config) (e : IterEnv) :
    delayEvents cfg e = [] ∨
      fastMode cfg = false ∧
        ∃ d, 0 < d ∧ delayEvents cfg e = [.delay d] ∧ d = delayMs cfg e := by
  unfold delayEvents
  split
  · exact .inl rfl
  · next hf =>
    split
    · next hd => exact .inr ⟨by simpa using hf, _, hd, rfl, rfl⟩
    · exact .inl rfl

theorem iterUnit_ok_facts {cfg : Config} {e : IterEnv} {i j : Nat}
    {evs : List Event} (hi : i < cfg.text.length)
    (h : iterUnit cfg e i = .ok (evs, j)) :
    i < j ∧ j ≤ cfg.text.length ∧ ∀ ev ∈ evs, isEmission ev = true := by
  unfold iterUnit at h
  split at h
  · next hfast =>
    have hfc : isFastChar (cfg.text.getD i ' ') = true := by
      exact (Bool.and_eq_true_iff.mp hfast).2
    have hdrop : cfg.text.drop i = cfg.text.getD i ' ' :: cfg.text.drop (i + 1) := by
      rw [List.getD_eq_getElem _ _ hi]
      exact List.drop_eq_getElem_cons hi
    split at h
    · next evs0 hftc =>
      injection h with h
      have h1 : evs0 = evs ∧ i + (chunkAt cfg i).length = j := by
        constructor
        · exact congrArg Prod.fst h
        · exact congrArg Prod.snd h
      obtain ⟨rfl, rfl⟩ := h1
      have hlen1 : 1 ≤ (chunkAt cfg i).length := by
        unfold chunkAt
        rw [hdrop, collectChunk_cons_fast hfc]
        simp
      have hlen2 : (chunkAt cfg i).length ≤ cfg.text.length - i :=
        le_trans (collectChunk_length_le_list _ _) (by simp [List.length_drop])
      refine ⟨by omega, by omega, ?_⟩
      rcases fastTypeChunk_ok_events hftc with rfl | rfl
      · simp
      · simp [isEmission]
    · cases h
  · split at h
    · next evs0 htc =>
      injection h with h
      have h1 : evs0 = evs ∧ i + 1 = j := ⟨congrArg Prod.fst h, congrArg Prod.snd h⟩
      obtain ⟨rfl, rfl⟩ := h1
      exact ⟨by omega, by omega, typeChar_ok_events htc⟩
    · cases h

end DelayInput

namespace DelayInput

/-! Trace bookkeeping lemmas. -/

theorem progVals_append (xs ys : List Event) :
    progVals (xs ++ ys) = progVals xs ++ progVals ys := by
  induction xs with
  | nil => simp [progVals]
  | cons e rest ih => cases e <;> simp [progVals, ih]

theorem progVals_eq_nil {xs : List Event} (h : ∀ e ∈ xs, isProg e = false) :
    progVals xs = [] := by
  induction xs with
  | nil => rfl
  | cons e rest ih =>
    have he := h e (by simp)
    have ht : ∀ e ∈ rest, isProg e = false := fun e' he' => h e' (by simp [he'])
    cases e <;> simp_all [progVals, isProg]

theorem focusStep_no_prog (e : IterEnv) (tgt : Option String) :
    ∀ ev ∈ (focusStep e tgt).2, isProg ev = false := by
  rcases focusStep_snd e tgt with h | h <;> rw [h] <;> simp [isProg]

theorem focusStep_no_terminal (e : IterEnv) (tgt : Option String) :
    ∀ ev ∈ (focusStep e tgt).2, isTerminal ev = false := by
  rcases focusStep_snd e tgt with h | h <;> rw [h] <;> simp [isTerminal]

theorem focusStep_no_emission (e : IterEnv) (tgt : Option String) :
    ∀ ev ∈ (focusStep e tgt).2, isEmission ev = false := by
  rcases focusStep_snd e tgt with h | h <;> rw [h] <;> simp [isEmission]

theorem covered_append_of_no_emission {xs : List Event} (ys : List Event)
    (h : ∀ e ∈ xs, isEmission e = false) (hys : covered ys = true) :
    covered (xs ++ ys) = true := by
  induction xs with
  | nil => simpa
  | cons e rest ih =>
    have he : isEmission e = false := h e (by simp)
    simp only [List.cons_append, covered, he]
    simp only [Bool.not_false, Bool.true_or, Bool.true_and]
    exact ih (fun e' he' => h e' (by simp [he']))

theorem covered_append_progress (xs ys : List Event) (p : Nat)
    (hys : covered ys = true) :
    covered (xs ++ Event.progress p :: ys) = true := by
  induction xs with
  | nil => simpa [covered, isEmission] using hys
  | cons e rest ih =>
    simp only [List.cons_append, covered]
    refine Bool.and_eq_true_iff.mpr ⟨?_, ih⟩
    have : (rest ++ Event.progress p :: ys).any isProg = true := by
      simp [List.any_append, isProg]
    simp [this]

theorem typeChar_ok_writes {kb : Bool} {pg : Option String} {ch : Char}
    {evs : List Event} (h : typeChar kb pg ch = .ok evs) :
    ∀ s, Event.write s ∈ evs → s.length = 1 := by
  unfold typeChar at h
  split at h
  · split at h
    · split at h
      · injection h with h; subst h; simp
      · cases h
    · injection h with h; subst h; simp
  · split at h
    · split at h
      · split at h
        · injection h with h; subst h; simp
        · cases h
      · injection h with h; subst h; simp
    · split at h
      · split at h
        · split at h
          · injection h with h; subst h; simp
          · cases h
        · split at h
          · split at h
            · injection h with h; subst h; simp
            · cases h
          · injection h with h; subst h; simp
      · have := safeWrite_ok_events h
        subst this
        intro s hs
        simp at hs
        subst hs
        rfl

theorem iterUnit_ok_writes {cfg : Config} {e : IterEnv} {i j : Nat}
    {evs : List Event} (hi : i < cfg.text.length)
    (h : iterUnit cfg e i = .ok (evs, j)) :
    ∀ s, Event.write s ∈ evs →
      1 ≤ s.length ∧ s.length ≤ 40 ∧ (fastMode cfg = false → s.length = 1) := by
  unfold iterUnit at h
  split at h
  · next hfast =>
    have hfm : fastMode cfg = true := (Bool.and_eq_true_iff.mp hfast).1
    have hfc : isFastChar (cfg.text.getD i ' ') = true := (Bool.and_eq_true_iff.mp hfast).2
    have hdrop : cfg.text.drop i = cfg.text.getD i ' ' :: cfg.text.drop (i + 1) := by
      rw [List.getD_eq_getElem _ _ hi]
      exact List.drop_eq_getElem_cons hi
    split at h
    · next evs0 hftc =>
      injection h with h
      have h1 : evs0 = evs := congrArg Prod.fst h
      subst h1
      intro s hs
      rcases fastTypeChunk_ok_events hftc with rfl | rfl
      · simp at hs
      · simp at hs
        subst hs
        have hlen1 : 1 ≤ (chunkAt cfg i).length := by
          unfold chunkAt
          rw [hdrop, collectChunk_cons_fast hfc]
          simp
        exact ⟨hlen1, collectChunk_length_le 40 _, fun hf => by rw [hfm] at hf; cases hf⟩
    · cases h
  · split at h
    · next evs0 htc =>
      injection h with h
      have h1 : evs0 = evs := congrArg Prod.fst h
      subst h1
      intro s hs
      have := typeChar_ok_writes htc s hs
      omega
    · cases h

end DelayInput

namespace DelayInput

theorem delayEvents_no_prog (cfg : Config) (e : IterEnv) :
    ∀ ev ∈ delayEvents cfg e, isProg ev = false := by
  rcases delayEvents_shape cfg e with h | ⟨-, d, -, h, -⟩ <;> rw [h] <;> simp [isProg]

theorem delayEvents_no_terminal (cfg : Config) (e : IterEnv) :
    ∀ ev ∈ delayEvents cfg e, isTerminal ev = false := by
  rcases delayEvents_shape cfg e with h | ⟨-, d, -, h, -⟩ <;> rw [h] <;> simp [isTerminal]

theorem delayEvents_no_emission (cfg : Config) (e : IterEnv) :
    ∀ ev ∈ delayEvents cfg e, isEmission ev = false := by
  rcases delayEvents_shape cfg e with h | ⟨-, d, -, h, -⟩ <;> rw [h] <;> simp [isEmission]

theorem getLast?_cons_of_ne_nil {α : Type} (a : α) {l : List α} (h : l ≠ []) :
    (a :: l).getLast? = l.getLast? := by
  cases l with
  | nil => exact absurd rfl h
  | cons b m => exact List.getLast?_cons_cons

theorem getLast?_append_right {α : Type} (l₁ : List α) {l₂ : List α} (h : l₂ ≠ []) :
    (l₁ ++ l₂).getLast? = l₂.getLast? := by
  rw [List.getLast?_append]
  cases hl : l₂.getLast? with
  | none =>
    cases l₂ with
    | nil => exact absurd rfl h
    | cons b m =>
      exfalso
      have := List.getLast?_isSome (l := b :: m)
      simp [hl] at this
  | some x => rfl

/-- Structure of every completed `runLoop` trace: a terminal-free prefix
followed by exactly one terminal event. -/
theorem runLoop_shape (cfg : Config) :
    ∀ (fuel : Nat) (env : Nat → IterEnv) (tgt : Option String) (i : Nat)
      (tr : List Event), runLoop cfg env tgt i fuel = some tr →
      ∃ pre t, tr = pre ++ [t] ∧ isTerminal t = true ∧
        ∀ e ∈ pre, isTerminal e = false := by
  intro fuel
  induction fuel with
  | zero => intro env tgt i tr h; simp [runLoop] at h
  | succ fuel ih =>
    intro env tgt i tr h
    rw [runLoop] at h
    split at h
    case isFalse =>
      injection h with h
      exact ⟨[], .finished, h.symm, rfl, by simp⟩
    case isTrue hi =>
      split at h
      case isTrue =>
        injection h with h
        exact ⟨[], .stopped, h.symm, rfl, by simp⟩
      case isFalse =>
        split at h
        case isTrue =>
          injection h with h
          exact ⟨(focusStep (env 0) tgt).2, .stopped, h.symm, rfl,
            focusStep_no_terminal _ _⟩
        case isFalse =>
          split at h
          case isTrue =>
            injection h with h
            exact ⟨(focusStep (env 0) tgt).2, .stopped, h.symm, rfl,
              focusStep_no_terminal _ _⟩
          case isFalse =>
            split at h
            · next m heq =>
              injection h with h
              exact ⟨(focusStep (env 0) tgt).2, .error m, h.symm, rfl,
                focusStep_no_terminal _ _⟩
            · next evs j heq =>
              rcases Option.map_eq_some'.mp h with ⟨rest, hrest, hmap⟩
              subst hmap
              obtain ⟨pre', t, rfl, ht, hpre'⟩ := ih _ _ _ _ hrest
              refine ⟨(focusStep (env 0) tgt).2 ++ evs ++
                .progress (j * 100 / cfg.text.length) ::
                  (delayEvents cfg (env 0) ++ pre'), t, ?_, ht, ?_⟩
              · simp [List.append_assoc]
              · intro e he
                simp only [List.mem_append, List.mem_cons] at he
                rcases he with (hcf | hev) | heq' | hd | hp
                · exact focusStep_no_terminal _ _ e hcf
                · exact isEmission_not_terminal
                    ((iterUnit_ok_facts hi heq).2.2 e hev)
                · rw [heq']; rfl
                · exact delayEvents_no_terminal _ _ e hd
                · exact hpre' e hp

end DelayInput

namespace DelayInput

/-- Every emission event of a completed trace is followed by a progress
report. -/
theorem runLoop_covered (cfg : Config) :
    ∀ (fuel : Nat) (env : Nat → IterEnv) (tgt : Option String) (i : Nat)
      (tr : List Event), runLoop cfg env tgt i fuel = some tr →
      covered tr = true := by
  intro fuel
  induction fuel with
  | zero => intro env tgt i tr h; simp [runLoop] at h
  | succ fuel ih =>
    intro env tgt i tr h
    rw [runLoop] at h
    split at h
    case isFalse =>
      injection h with h
      rw [← h]
      simp [covered, isEmission]
    case isTrue hi =>
      split at h
      case isTrue =>
        injection h with h
        rw [← h]
        simp [covered, isEmission]
      case isFalse =>
        split at h
        case isTrue =>
          injection h with h
          rw [← h]
          exact covered_append_of_no_emission _ (focusStep_no_emission _ _)
            (by simp [covered, isEmission])
        case isFalse =>
          split at h
          case isTrue =>
            injection h with h
            rw [← h]
            exact covered_append_of_no_emission _ (focusStep_no_emission _ _)
              (by simp [covered, isEmission])
          case isFalse =>
            split at h
            · next m heq =>
              injection h with h
              rw [← h]
              exact covered_append_of_no_emission _ (focusStep_no_emission _ _)
                (by simp [covered, isEmission])
            · next evs j heq =>
              rcases Option.map_eq_some'.mp h with ⟨rest, hrest, hmap⟩
              subst hmap
              have hys : covered (delayEvents cfg (env 0) ++ rest) = true :=
                covered_append_of_no_emission _ (delayEvents_no_emission _ _)
                  (ih _ _ _ _ hrest)
              have : ((focusStep (env 0) tgt).2 ++ evs) ++
                  Event.progress (j * 100 / cfg.text.length) ::
                    (delayEvents cfg (env 0) ++ rest) =
                  (focusStep (env 0) tgt).2 ++ evs ++
                    Event.progress (j * 100 / cfg.text.length) ::
                      (delayEvents cfg (env 0) ++ rest) := by
                simp [List.append_assoc]
              rw [← this]
              exact covered_append_progress _ _ _ hys

/-- Size and provenance facts about the write and sleep events of a
completed trace: every literal write has between 1 and 40 characters,
writes in the paced path are single characters, and every sleep happens
in the paced path, is positive, and equals base delay plus the
(possibly zero) jitter. -/
theorem runLoop_events (cfg : Config) :
    ∀ (fuel : Nat) (env : Nat → IterEnv) (tgt : Option String) (i : Nat)
      (tr : List Event), runLoop cfg env tgt i fuel = some tr →
      ∀ ev ∈ tr,
        (∀ s, ev = Event.write s →
          1 ≤ s.length ∧ s.length ≤ 40 ∧ (fastMode cfg = false → s.length = 1)) ∧
        (∀ d, ev = Event.delay d →
          fastMode cfg = false ∧ 0 < d ∧ ∃ r, d = delayVal cfg r) := by
  intro fuel
  induction fuel with
  | zero => intro env tgt i tr h; simp [runLoop] at h
  | succ fuel ih =>
    intro env tgt i tr h
    rw [runLoop] at h
    split at h
    case isFalse =>
      injection h with h
      rw [← h]
      intro ev hev
      simp at hev
      subst hev
      constructor
      · intro s hs; cases hs
      · intro d hd; cases hd
    case isTrue hi =>
      split at h
      case isTrue =>
        injection h with h
        rw [← h]
        intro ev hev
        simp at hev
        subst hev
        constructor
        · intro s hs; cases hs
        · intro d hd; cases hd
      case isFalse =>
        have hfp : ∀ ev ∈ (focusStep (env 0) tgt).2 ++ [Event.stopped],
            (∀ s, ev = Event.write s →
              1 ≤ s.length ∧ s.length ≤ 40 ∧ (fastMode cfg = false → s.length = 1)) ∧
            (∀ d, ev = Event.delay d →
              fastMode cfg = false ∧ 0 < d ∧ ∃ r, d = delayVal cfg r) := by
          intro ev hev
          rcases List.mem_append.mp hev with hcf | hst
          · rcases focusStep_snd (env 0) tgt with hfs | hfs <;> rw [hfs] at hcf
            · simp at hcf
            · simp at hcf
              subst hcf
              exact ⟨(fun s hs => nomatch hs), (fun d hd => nomatch hd)⟩
          · simp at hst
            subst hst
            exact ⟨(fun s hs => nomatch hs), (fun d hd => nomatch hd)⟩
        split at h
        case isTrue =>
          injection h with h
          rw [← h]
          exact hfp
        case isFalse =>
          split at h
          case isTrue =>
            injection h with h
            rw [← h]
            exact hfp
          case isFalse =>
            split at h
            · next m heq =>
              injection h with h
              rw [← h]
              intro ev hev
              rcases List.mem_append.mp hev with hcf | her
              · rcases focusStep_snd (env 0) tgt with hfs | hfs <;> rw [hfs] at hcf
                · simp at hcf
                · simp at hcf
                  subst hcf
                  exact ⟨(fun s hs => nomatch hs), (fun d hd => nomatch hd)⟩
              · simp at her
                subst her
                exact ⟨(fun s hs => nomatch hs), (fun d hd => nomatch hd)⟩
            · next evs j heq =>
              rcases Option.map_eq_some'.mp h with ⟨rest, hrest, hmap⟩
              subst hmap
              intro ev hev
              simp only [List.mem_append, List.mem_cons] at hev
              rcases hev with (hcf | hev') | heq' | hd | hp
              · rcases focusStep_snd (env 0) tgt with hfs | hfs <;> rw [hfs] at hcf
                · simp at hcf
                · simp at hcf
                  subst hcf
                  exact ⟨(fun s hs => nomatch hs), (fun d hd => nomatch hd)⟩
              · constructor
                · intro s hs
                  subst hs
                  exact iterUnit_ok_writes hi heq s hev'
                · intro d hd
                  subst hd
                  have := (iterUnit_ok_facts hi heq).2.2 _ hev'
                  simp [isEmission] at this
              · subst heq'
                exact ⟨(fun s hs => nomatch hs), (fun d hd => nomatch hd)⟩
              · rcases delayEvents_shape cfg (env 0) with hde | ⟨hfm, d0, hd0, hde, hdv⟩
                · rw [hde] at hd; simp at hd
                · rw [hde] at hd
                  simp at hd
                  subst hd
                  refine ⟨(fun s hs => nomatch hs), fun d hd => ?_⟩
                  injection hd with hd
                  subst hd
                  exact ⟨hfm, hd0, (env 0).rand, hdv⟩
              · exact ih _ _ _ _ hrest ev hp

end DelayInput

namespace DelayInput

theorem cursor_nil_case (cfg : Config) (e : IterEnv) (tgt : Option String)
    (i : Nat) (x : Event) (hx : isProg x = false) (hxf : x ≠ .finished) :
    ∃ js : List Nat,
      List.Chain' (· < ·) (i :: js) ∧ (∀ j ∈ js, j ≤ cfg.text.length) ∧
      progVals ((focusStep e tgt).2 ++ [x]) =
        js.map (fun j => j * 100 / cfg.text.length) ∧
      (((focusStep e tgt).2 ++ [x]).getLast? = some .finished →
        js.getLast? = some cfg.text.length ∨ (js = [] ∧ i = cfg.text.length)) := by
  refine ⟨[], List.chain'_singleton i, by simp, ?_, ?_⟩
  · rw [progVals_append, progVals_eq_nil (focusStep_no_prog e tgt)]
    cases x <;> simp_all [progVals, isProg]
  · intro hlast
    rw [List.getLast?_concat] at hlast
    injection hlast with hlast
    exact absurd hlast hxf

/-- Cursor/progress characterisation of a completed trace: the reported
progress values are exactly `j * 100 / length` over a strictly
increasing list `js` of cursor positions bounded by the text length,
and when the trace ends in `finished` the final cursor is the full
text length. -/
theorem runLoop_cursor (cfg : Config) :
    ∀ (fuel : Nat) (env : Nat → IterEnv) (tgt : Option String) (i : Nat)
      (tr : List Event), i ≤ cfg.text.length →
      runLoop cfg env tgt i fuel = some tr →
      ∃ js : List Nat,
        List.Chain' (· < ·) (i :: js) ∧ (∀ j ∈ js, j ≤ cfg.text.length) ∧
        progVals tr = js.map (fun j => j * 100 / cfg.text.length) ∧
        (tr.getLast? = some .finished →
          js.getLast? = some cfg.text.length ∨ (js = [] ∧ i = cfg.text.length)) := by
  intro fuel
  induction fuel with
  | zero => intro env tgt i tr _ h; simp [runLoop] at h
  | succ fuel ih =>
    intro env tgt i tr hile h
    rw [runLoop] at h
    split at h
    case isFalse hge =>
      injection h with h
      refine ⟨[], List.chain'_singleton i, by simp, by rw [← h]; rfl, ?_⟩
      intro _
      exact .inr ⟨rfl, by omega⟩
    case isTrue hi =>
      split at h
      case isTrue =>
        injection h with h
        refine ⟨[], List.chain'_singleton i, by simp, by rw [← h]; rfl, ?_⟩
        intro hlast
        rw [← h] at hlast
        simp at hlast
      case isFalse =>
        split at h
        case isTrue =>
          injection h with h
          rw [← h]
          exact cursor_nil_case cfg (env 0) tgt i .stopped rfl (by simp)
        case isFalse =>
          split at h
          case isTrue =>
            injection h with h
            rw [← h]
            exact cursor_nil_case cfg (env 0) tgt i .stopped rfl (by simp)
          case isFalse =>
            split at h
            · next m heq =>
              injection h with h
              rw [← h]
              exact cursor_nil_case cfg (env 0) tgt i (.error m) rfl (by simp)
            · next evs j heq =>
              rcases Option.map_eq_some'.mp h with ⟨rest, hrest, hmap⟩
              subst hmap
              obtain ⟨hij, hjle, hemis⟩ := iterUnit_ok_facts hi heq
              obtain ⟨js', hch', hbd', hpv', hfin'⟩ := ih _ _ _ _ hjle hrest
              refine ⟨j :: js', List.chain'_cons.mpr ⟨hij, hch'⟩, ?_, ?_, ?_⟩
              · intro j' hj'
                rcases List.mem_cons.mp hj' with rfl | h'
                · exact hjle
                · exact hbd' _ h'
              · rw [progVals_append, progVals_append,
                  progVals_eq_nil (focusStep_no_prog _ _),
                  progVals_eq_nil
                    (fun e' he' => isEmission_not_prog (hemis e' he'))]
                simp only [progVals, List.nil_append]
                rw [progVals_append,
                  progVals_eq_nil (delayEvents_no_prog cfg (env 0)), hpv']
                rfl
              · intro hlast
                have hrne : rest ≠ [] := by
                  obtain ⟨pre', t, rfl, -, -⟩ := runLoop_shape cfg _ _ _ _ _ hrest
                  simp
                have htr : (focusStep (env 0) tgt).2 ++ evs ++
                    Event.progress (j * 100 / cfg.text.length) ::
                      (delayEvents cfg (env 0) ++ rest) =
                    ((focusStep (env 0) tgt).2 ++ evs ++
                      Event.progress (j * 100 / cfg.text.length) ::
                        delayEvents cfg (env 0)) ++ rest := by
                  simp [List.append_assoc]
                rw [htr, getLast?_append_right _ hrne] at hlast
                rcases hfin' hlast with hl | ⟨rfl, rfl⟩
                · left
                  have hne : js' ≠ [] := by
                    intro hnil
                    rw [hnil] at hl
                    simp at hl
                  rw [getLast?_cons_of_ne_nil _ hne]
                  exact hl
                · left
                  rfl

end DelayInput

namespace DelayInput

theorem isFastChar_spec {ch : Char} (h : isFastChar ch = true) :
    ch ≠ '\n' ∧ ch ≠ '\t' ∧ 32 ≤ ch.toNat := by
  unfold isFastChar at h
  split at h
  · cases h
  · next hn =>
    push_neg at hn
    exact ⟨hn.1, hn.2, of_decide_eq_true h⟩

theorem chunkAt_not_empty {cfg : Config} {i : Nat} (hi : i < cfg.text.length)
    (hfc : isFastChar (cfg.text.getD i ' ') = true) :
    (chunkAt cfg i).isEmpty = false := by
  have hdrop : cfg.text.drop i = cfg.text.getD i ' ' :: cfg.text.drop (i + 1) := by
    rw [List.getD_eq_getElem _ _ hi]
    exact List.drop_eq_getElem_cons hi
  unfold chunkAt
  rw [hdrop, collectChunk_cons_fast hfc]
  simp

theorem iterUnit_fast {cfg : Config} {e : IterEnv} {i : Nat}
    (hi : i < cfg.text.length) (hfm : fastMode cfg = true)
    (hfc : isFastChar (cfg.text.getD i ' ') = true) (hkb : e.kbFail = false) :
    iterUnit cfg e i =
      .ok ([.write (chunkAt cfg i)], i + (chunkAt cfg i).length) := by
  unfold iterUnit
  rw [if_pos (by rw [hfm, hfc]; rfl)]
  simp [fastTypeChunk, chunkAt_not_empty hi hfc, safeWrite, hkb]

theorem iterUnit_raises {cfg : Config} {e : IterEnv} {i : Nat} {m : String}
    (hi : i < cfg.text.length)
    (hfc : isFastChar (cfg.text.getD i ' ') = true)
    (hkb : e.kbFail = true) (hpg : e.pgFail = some m) :
    iterUnit cfg e i = .error m := by
  obtain ⟨h1, h2, h3⟩ := isFastChar_spec hfc
  unfold iterUnit
  split
  · simp [fastTypeChunk, chunkAt_not_empty hi hfc, safeWrite, hkb, hpg]
  · generalize hch : cfg.text.getD i ' ' = ch at h1 h2 h3 ⊢
    simp [typeChar, h1, h2, Nat.not_lt.mpr h3, safeWrite, hkb, hpg]

theorem delayEvents_fast {cfg : Config} (e : IterEnv) (h : fastMode cfg = true) :
    delayEvents cfg e = [] := by
  simp [delayEvents, h]

theorem runLoop_stopTop {cfg : Config} {env : Nat → IterEnv}
    {tgt : Option String} {i : Nat} (fuel : Nat) (hi : i < cfg.text.length)
    (hst : (env 0).stopTop = true) :
    runLoop cfg env tgt i (fuel + 1) = some [.stopped] := by
  rw [runLoop]
  simp [hi, hst]

theorem runLoop_pause_stop {cfg : Config} {env : Nat → IterEnv}
    {tgt : Option String} {i : Nat} (fuel : Nat) (hi : i < cfg.text.length)
    (hst : (env 0).stopTop = false)
    (hp : (focusStep (env 0) tgt).1 = true)
    (hl : (env 0).loopExitStop = true) :
    runLoop cfg env tgt i (fuel + 1) =
      some ((focusStep (env 0) tgt).2 ++ [.stopped]) := by
  rw [runLoop]
  simp [hi, hst, hp, hl]

theorem runLoop_ok_step {cfg : Config} {env : Nat → IterEnv}
    {tgt : Option String} {i : Nat} {evs : List Event} {j : Nat} (fuel : Nat)
    (hi : i < cfg.text.length)
    (hst : (env 0).stopTop = false)
    (hps : ((focusStep (env 0) tgt).1 && (env 0).loopExitStop) = false)
    (hsa : (env 0).stopAfter = false)
    (hok : iterUnit cfg (env 0) i = .ok (evs, j)) :
    runLoop cfg env tgt i (fuel + 1) =
      (runLoop cfg (fun n => env (n + 1)) (retargetOf (env 0) tgt) j fuel).map
        (fun rest => (focusStep (env 0) tgt).2 ++ evs ++
          .progress (j * 100 / cfg.text.length) ::
            (delayEvents cfg (env 0) ++ rest)) := by
  rw [runLoop]
  simp [hi, hst, hps, hsa, hok]

theorem runLoop_raise_step {cfg : Config} {env : Nat → IterEnv}
    {tgt : Option String} {i : Nat} {m : String} (fuel : Nat)
    (hi : i < cfg.text.length)
    (hst : (env 0).stopTop = false)
    (hps : ((focusStep (env 0) tgt).1 && (env 0).loopExitStop) = false)
    (hsa : (env 0).stopAfter = false)
    (hok : iterUnit cfg (env 0) i = .error m) :
    runLoop cfg env tgt i (fuel + 1) =
      some ((focusStep (env 0) tgt).2 ++ [.error m]) := by
  rw [runLoop]
  simp [hi, hst, hps, hsa, hok]

theorem runLoop_stopped_last (cfg : Config) {fuel : Nat} {env : Nat → IterEnv}
    {tgt : Option String} {i : Nat} {tr : List Event}
    (h : runLoop cfg env tgt i fuel = some tr) (hs : Event.stopped ∈ tr) :
    tr.getLast? = some .stopped ∧ Event.finished ∉ tr := by
  obtain ⟨pre, t, rfl, ht, hpre⟩ := runLoop_shape cfg _ _ _ _ _ h
  have hts : t = .stopped := by
    rcases List.mem_append.mp hs with hp | hx
    · have := hpre _ hp
      simp [isTerminal] at this
    · exact (List.mem_singleton.mp hx).symm
  subst hts
  refine ⟨List.getLast?_concat _, ?_⟩
  intro hf
  rcases List.mem_append.mp hf with hp | hx
  · have := hpre _ hp
    simp [isTerminal] at this
  · simp at hx

end DelayInput

namespace DelayInput

/-- C1: for every non-empty text and every completed invocation of
`TypingWorker.run`, the reported progress values are exactly the integer
truncations `j * 100 / length` of a strictly increasing sequence of
cursor positions (one value per emitted unit) bounded by the text
length; hence the reported sequence is non-decreasing; every emission
event is followed by a progress report (`covered`); and when the run
ends in natural completion (`finished`) the final reported value
is 100. -/
theorem progress_monotone_and_complete (cfg : Config) (env : Nat → IterEnv)
    (fuel : Nat) (tr : List Event) (hne : cfg.text ≠ [])
    (h : TypingWorker.run cfg env fuel = some tr) :
    (∃ js : List Nat,
      List.Chain' (· < ·) (0 :: js) ∧ (∀ j ∈ js, j ≤ cfg.text.length) ∧
      progVals tr = js.map (fun j => j * 100 / cfg.text.length)) ∧
    List.Chain' (· ≤ ·) (progVals tr) ∧
    covered tr = true ∧
    (tr.getLast? = some .finished → (progVals tr).getLast? = some 100) := by
  have hlen : cfg.text.length ≠ 0 := by
    intro h0
    exact hne (List.length_eq_zero.mp h0)
  unfold TypingWorker.run at h
  rw [if_neg hlen] at h
  obtain ⟨js, hch, hbd, hpv, hfin⟩ :=
    runLoop_cursor cfg fuel env cfg.target 0 tr (Nat.zero_le _) h
  have hcov := runLoop_covered cfg fuel env cfg.target 0 tr h
  have hmono : List.Chain' (· ≤ ·) (progVals tr) := by
    rw [hpv, List.chain'_map]
    exact List.Chain'.imp
      (fun a b hab =>
        Nat.div_le_div_right (Nat.mul_le_mul_right 100 (le_of_lt hab)))
      hch.tail
  refine ⟨⟨js, hch, hbd, hpv⟩, hmono, hcov, ?_⟩
  intro hlast
  rcases hfin hlast with hl | ⟨_, h0⟩
  · rw [hpv, List.getLast?_map, hl]
    simp [Nat.mul_div_cancel_left 100 (Nat.pos_of_ne_zero hlen)]
  · exact absurd h0.symm hlen

/-- Witness for C1 at the spec's "ab\nc" scenario. -/
theorem progress_monotone_and_complete_witness :
    (∃ js : List Nat,
      List.Chain' (· < ·) (0 :: js) ∧ (∀ j ∈ js, j ≤ cfgDemo.text.length) ∧
      progVals trDemo = js.map (fun j => j * 100 / cfgDemo.text.length)) ∧
    List.Chain' (· ≤ ·) (progVals trDemo) ∧
    covered trDemo = true ∧
    (trDemo.getLast? = some .finished → (progVals trDemo).getLast? = some 100) :=
  progress_monotone_and_complete cfgDemo (fun _ => benignEnv) 10 trDemo
    (by decide) (by decide)

/-- C10: every completed `run` invocation emits exactly one terminal
signal, as the last event of its trace; the empty text finishes
immediately, with no progress value; and a unit at which both emission
primitives raise makes the iteration abort with a single `error`
carrying the exception message. -/
theorem run_single_terminal (cfg : Config) (env : Nat → IterEnv) (fuel : Nat) :
    (cfg.text = [] → TypingWorker.run cfg env fuel = some [.finished]) ∧
    (∀ tr, TypingWorker.run cfg env fuel = some tr →
      ∃ pre t, tr = pre ++ [t] ∧ isTerminal t = true ∧
        ∀ e ∈ pre, isTerminal e = false) ∧
    (∀ i m, i < cfg.text.length → (env 0).retarget = none → cfg.target = none →
      (env 0).stopTop = false → (env 0).pauseCF = false →
      (env 0).stopAfter = false → (env 0).kbFail = true →
      (env 0).pgFail = some m → isFastChar (cfg.text.getD i ' ') = true →
      runLoop cfg env cfg.target i (fuel + 1) = some [.error m]) := by
  refine ⟨?_, ?_, ?_⟩
  · intro he
    unfold TypingWorker.run
    rw [if_pos (by simp [he])]
  · intro tr h
    unfold TypingWorker.run at h
    split at h
    · injection h with h
      exact ⟨[], .finished, h.symm, rfl, by simp⟩
    · exact runLoop_shape cfg _ _ _ _ _ h
  · intro i m hi hrt htgt hst hpcf hsa hkb hpg hfc
    have hfs : focusStep (env 0) cfg.target = ((env 0).pauseCF, []) := by
      unfold focusStep retargetOf
      rw [hrt, htgt]
      simp [checkFocus, optFalsy]
    have hstep := runLoop_raise_step fuel hi hst (by rw [hfs]; simp [hpcf]) hsa
      (iterUnit_raises hi hfc hkb hpg)
    rw [hstep, hfs]
    rfl

/-- Witness for C10: empty text, the shape of the demo trace, and a raising
first unit. -/
theorem run_single_terminal_witness :
    TypingWorker.run ⟨[], 0, false, 0, 0, none⟩ (fun _ => benignEnv) 5 =
      some [.finished] ∧
    (∃ pre t, trDemo = pre ++ [t] ∧ isTerminal t = true ∧
      ∀ e ∈ pre, isTerminal e = false) ∧
    runLoop ⟨['a', 'b'], 50, false, 0, 0, none⟩ (fun _ => envRaise) none 0 5 =
      some [.error "boom"] :=
  ⟨(run_single_terminal ⟨[], 0, false, 0, 0, none⟩ (fun _ => benignEnv) 5).1 rfl,
   (run_single_terminal cfgDemo (fun _ => benignEnv) 10).2.1 trDemo (by decide),
   (run_single_terminal ⟨['a', 'b'], 50, false, 0, 0, none⟩
      (fun _ => envRaise) 4).2.2 0 "boom" (by decide) rfl rfl rfl rfl rfl rfl
      rfl (by decide)⟩

/-- C5: a stop observed at the top of a unit iteration makes the worker
emit `stopped` immediately, with nothing else, regardless of the
remaining text; a stop observed while the pause-idle loop is waiting
does the same (after the pending focus notification); every completed
trace containing `stopped` ends with it and never contains `finished`;
and the controller's cancel command takes Countdown to Idle without a
worker signal and signals `stop()` to the worker from Typing or
Paused. -/
theorem cancel_yields_stopped (cfg : Config) (env : Nat → IterEnv)
    (tgt : Option String) (i fuel : Nat) :
    (i < cfg.text.length → (env 0).stopTop = true →
      runLoop cfg env tgt i (fuel + 1) = some [.stopped]) ∧
    (i < cfg.text.length → (env 0).stopTop = false →
      (focusStep (env 0) tgt).1 = true → (env 0).loopExitStop = true →
      runLoop cfg env tgt i (fuel + 1) =
        some ((focusStep (env 0) tgt).2 ++ [.stopped])) ∧
    (∀ tr, runLoop cfg env tgt i fuel = some tr → Event.stopped ∈ tr →
      tr.getLast? = some .stopped ∧ Event.finished ∉ tr) ∧
    (∀ hw, cancelTyping .countdown hw = (.idle, false)) ∧
    cancelTyping .typing true = (.idle, true) ∧
    cancelTyping .paused true = (.idle, true) := by
  refine ⟨runLoop_stopTop fuel, runLoop_pause_stop fuel, ?_, fun _ => rfl, rfl, rfl⟩
  intro tr h hs
  exact runLoop_stopped_last cfg h hs

/-- Witness for C5: stop observed at once, and a trace stopped after one
emitted character. -/
theorem cancel_yields_stopped_witness :
    runLoop cfgPaced (fun _ => envStopped) (some "T") 0 4 = some [.stopped] ∧
    ([Event.write ['a'], .progress 50, .delay 50, .stopped].getLast? =
        some Event.stopped ∧
      Event.finished ∉ [Event.write ['a'], .progress 50, .delay 50, .stopped]) :=
  ⟨(cancel_yields_stopped cfgPaced (fun _ => envStopped) (some "T") 0 3).1
      (by decide) rfl,
   (cancel_yields_stopped cfgPaced
      (fun n => if n = 0 then benignEnv else envStopped) (some "T") 0 4).2.2.1
      [Event.write ['a'], .progress 50, .delay 50, .stopped]
      (by decide) (by decide)⟩

end DelayInput

namespace DelayInput

/-- C2: the fast path is triggered exactly when the base delay is zero and
jitter is disabled; the batch it collects is the maximal run of
consecutive fast characters capped at 40 per batch; no completed
fast-mode trace contains an inter-unit sleep; every batched write has
between 1 and 40 characters while paced-path writes are single
characters; and on a fast character a clean fast-mode iteration emits
the whole chunk as one batched write followed by one progress report,
with no sleep. -/
theorem fast_path_batching (cfg : Config) (env : Nat → IterEnv)
    (tgt : Option String) (i fuel : Nat) :
    (fastMode cfg = true ↔ cfg.baseDelayMs = 0 ∧ cfg.useRandom = false) ∧
    (∀ l, collectChunk 40 l = (l.takeWhile isFastChar).take 40) ∧
    (∀ tr, runLoop cfg env tgt i fuel = some tr →
      (fastMode cfg = true → ∀ d, Event.delay d ∉ tr) ∧
      (fastMode cfg = false → ∀ s, Event.write s ∈ tr → s.length = 1) ∧
      (∀ s, Event.write s ∈ tr → 1 ≤ s.length ∧ s.length ≤ 40)) ∧
    (i < cfg.text.length → fastMode cfg = true →
      isFastChar (cfg.text.getD i ' ') = true →
      (env 0).stopTop = false → (focusStep (env 0) tgt).1 = false →
      (env 0).stopAfter = false → (env 0).kbFail = false →
      delayEvents cfg (env 0) = [] ∧
      runLoop cfg env tgt i (fuel + 1) =
        (runLoop cfg (fun n => env (n + 1)) (retargetOf (env 0) tgt)
            (i + (chunkAt cfg i).length) fuel).map
          (fun rest => (focusStep (env 0) tgt).2 ++
            [Event.write (chunkAt cfg i)] ++
            Event.progress
              ((i + (chunkAt cfg i).length) * 100 / cfg.text.length) ::
              (delayEvents cfg (env 0) ++ rest))) := by
  refine ⟨?_, fun l => collectChunk_eq_takeWhile_take 40 l, ?_, ?_⟩
  · simp [fastMode, Bool.and_eq_true, Bool.not_eq_true']
  · intro tr h
    refine ⟨?_, ?_, ?_⟩
    · intro hfm d hd
      have := ((runLoop_events cfg fuel env tgt i tr h (.delay d) hd).2 d rfl).1
      rw [hfm] at this
      cases this
    · intro hfm s hs
      exact ((runLoop_events cfg fuel env tgt i tr h (.write s) hs).1 s rfl).2.2 hfm
    · intro s hs
      exact ⟨((runLoop_events cfg fuel env tgt i tr h (.write s) hs).1 s rfl).1,
        ((runLoop_events cfg fuel env tgt i tr h (.write s) hs).1 s rfl).2.1⟩
  · intro hi hfm hfc hst hpf hsa hkb
    refine ⟨delayEvents_fast (env 0) hfm, ?_⟩
    exact runLoop_ok_step fuel hi hst (by rw [hpf]; rfl) hsa
      (iterUnit_fast hi hfm hfc hkb)

/-- Witness for C2 on the demo configuration: "ab" is batched by the first
fast-mode iteration. -/
theorem fast_path_batching_witness :
    (fastMode cfgDemo = true ↔ cfgDemo.baseDelayMs = 0 ∧ cfgDemo.useRandom = false) ∧
    (collectChunk 40 cfgDemo.text =
      (cfgDemo.text.takeWhile isFastChar).take 40) ∧
    (fastMode cfgDemo = true → ∀ d, Event.delay d ∉ trDemo) ∧
    (delayEvents cfgDemo benignEnv = [] ∧
      runLoop cfgDemo (fun _ => benignEnv) (some "T") 0 10 =
        (runLoop cfgDemo (fun n => (fun _ => benignEnv) (n + 1))
            (retargetOf benignEnv (some "T")) (0 + (chunkAt cfgDemo 0).length) 9).map
          (fun rest => (focusStep benignEnv (some "T")).2 ++
            [Event.write (chunkAt cfgDemo 0)] ++
            Event.progress
              ((0 + (chunkAt cfgDemo 0).length) * 100 / cfgDemo.text.length) ::
              (delayEvents cfgDemo benignEnv ++ rest))) :=
  ⟨(fast_path_batching cfgDemo (fun _ => benignEnv) (some "T") 0 10).1,
   (fast_path_batching cfgDemo (fun _ => benignEnv) (some "T") 0 10).2.1 cfgDemo.text,
   fun hfm d =>
     ((fast_path_batching cfgDemo (fun _ => benignEnv) (some "T") 0 10).2.2.1
       trDemo (by decide)).1 hfm d,
   (fast_path_batching cfgDemo (fun _ => benignEnv) (some "T") 0 9).2.2.2
     (by decide) (by decide) (by decide) rfl (by decide) rfl rfl⟩

/-- C3: `TypingWorker.__init__` swaps inverted jitter bounds, so the
effective bounds are the minimum and maximum of the two inputs and are
ordered for the worker's whole lifetime (the loop never mutates them);
every `randint` sample over the effective bounds lies within them, both
endpoints included; and in a jittered run every inter-unit sleep of a
completed trace equals the base delay plus a jitter value within
`[min a b, max a b]`. -/
theorem jitter_bounds_swapped (text : List Char) (base : Nat) (ur : Bool)
    (a b : Nat) (tgt : Option String) (env : Nat → IterEnv) (fuel : Nat) :
    (TypingWorker.init text base ur a b tgt).randMinMs = min a b ∧
    (TypingWorker.init text base ur a b tgt).randMaxMs = max a b ∧
    (TypingWorker.init text base ur a b tgt).randMinMs ≤
      (TypingWorker.init text base ur a b tgt).randMaxMs ∧
    (∀ r, min a b ≤ randint (min a b) (max a b) r ∧
      randint (min a b) (max a b) r ≤ max a b) ∧
    (ur = true →
      ∀ tr, TypingWorker.run (TypingWorker.init text base ur a b tgt) env fuel =
          some tr →
        ∀ d, Event.delay d ∈ tr →
          ∃ jv, min a b ≤ jv ∧ jv ≤ max a b ∧ d = base + jv) := by
  have hmin : (TypingWorker.init text base ur a b tgt).randMinMs = min a b := by
    unfold TypingWorker.init
    split
    · show b = min a b
      omega
    · show a = min a b
      omega
  have hmax : (TypingWorker.init text base ur a b tgt).randMaxMs = max a b := by
    unfold TypingWorker.init
    split
    · show a = max a b
      omega
    · show b = max a b
      omega
  have hbase : (TypingWorker.init text base ur a b tgt).baseDelayMs = base := by
    unfold TypingWorker.init
    split <;> rfl
  have hur : (TypingWorker.init text base ur a b tgt).useRandom = ur := by
    unfold TypingWorker.init
    split <;> rfl
  refine ⟨hmin, hmax, by rw [hmin, hmax]; exact min_le_max, ?_, ?_⟩
  · intro r
    exact randint_bounds min_le_max r
  · intro hu tr htr d hd
    subst hu
    unfold TypingWorker.run at htr
    split at htr
    · injection htr with htr
      rw [← htr] at hd
      simp at hd
    · have := ((runLoop_events _ fuel env _ 0 tr htr (.delay d) hd).2 d rfl).2.2
      obtain ⟨r, hr⟩ := this
      unfold delayVal at hr
      rw [hbase, hur, hmin, hmax] at hr
      simp only [if_true] at hr
      exact ⟨randint (min a b) (max a b) r, (randint_bounds min_le_max r).1,
        (randint_bounds min_le_max r).2, hr⟩

/-- Witness for C3 with inverted bounds 10 > 5 and a one-character jittered
run. -/
theorem jitter_bounds_swapped_witness :
    (TypingWorker.init ['a'] 20 true 10 5 (some "T")).randMinMs = min 10 5 ∧
    (TypingWorker.init ['a'] 20 true 10 5 (some "T")).randMaxMs = max 10 5 ∧
    (TypingWorker.init ['a'] 20 true 10 5 (some "T")).randMinMs ≤
      (TypingWorker.init ['a'] 20 true 10 5 (some "T")).randMaxMs ∧
    (min 10 5 ≤ randint (min 10 5) (max 10 5) 3 ∧
      randint (min 10 5) (max 10 5) 3 ≤ max 10 5) ∧
    (∃ jv, min 10 5 ≤ jv ∧ jv ≤ max 10 5 ∧ 28 = 20 + jv) :=
  ⟨(jitter_bounds_swapped ['a'] 20 true 10 5 (some "T") (fun _ => benignEnv) 5).1,
   (jitter_bounds_swapped ['a'] 20 true 10 5 (some "T") (fun _ => benignEnv) 5).2.1,
   (jitter_bounds_swapped ['a'] 20 true 10 5 (some "T") (fun _ => benignEnv) 5).2.2.1,
   (jitter_bounds_swapped ['a'] 20 true 10 5 (some "T") (fun _ => benignEnv) 5).2.2.2.1 3,
   (jitter_bounds_swapped ['a'] 20 true 10 5 (some "T")
      (fun _ => { benignEnv with rand := 3 }) 5).2.2.2.2 rfl
      [.write ['a'], .progress 100, .delay 28, .finished] (by decide) 28
      (by decide)⟩

end DelayInput

namespace DelayInput

/-- C6: when the per-unit focus re-check sees a mismatching or empty
foreground title, `_check_focus` sets the pause flag and emits the
focus-lost notification; and once the pause-idle loop is released by a
resume, the same iteration emits the unit at the *same* cursor `i` —
the pause consumes no character and the remaining text is untouched,
the cursor advancing only by the retried unit itself. -/
theorem focus_loss_pauses_without_consuming (cfg : Config)
    (env : Nat → IterEnv) (t : String) (i fuel : Nat) (f : Option String)
    (evs rest : List Event) (j : Nat)
    (hi : i < cfg.text.length)
    (hrt : (env 0).retarget = none)
    (hst : (env 0).stopTop = false)
    (hscf : (env 0).stopCF = false) (hpcf : (env 0).pauseCF = false)
    (hte : t ≠ "")
    (hfo : (env 0).focus = .ret f)
    (hmis : (optFalsy f || f != some t) = true)
    (hle : (env 0).loopExitStop = false) (hsa : (env 0).stopAfter = false)
    (hok : iterUnit cfg (env 0) i = .ok (evs, j))
    (hrest : runLoop cfg (fun n => env (n + 1)) (some t) j fuel = some rest) :
    focusStep (env 0) (some t) = (true, [.focusPaused]) ∧
    i < j ∧
    runLoop cfg env (some t) i (fuel + 1) =
      some (.focusPaused :: (evs ++
        Event.progress (j * 100 / cfg.text.length) ::
          (delayEvents cfg (env 0) ++ rest))) := by
  have hof : optFalsy (some t) = false := by
    unfold optFalsy
    cases hie : t.isEmpty
    · exact hie
    · exact absurd ((String.isEmpty_iff t).mp hie) hte
  have hfs : focusStep (env 0) (some t) = (true, [.focusPaused]) := by
    unfold focusStep retargetOf
    rw [hrt, hfo]
    unfold checkFocus
    rw [hof, hscf, hpcf]
    simp [hmis]
  refine ⟨hfs, (iterUnit_ok_facts hi hok).1, ?_⟩
  have hrt2 : retargetOf (env 0) (some t) = some t := by
    unfold retargetOf
    rw [hrt]
  have hstep := runLoop_ok_step fuel hi hst (by rw [hfs, hle]; rfl) hsa hok
  rw [hstep, hrt2, hrest, hfs]
  simp

/-- Witness for C6: a paced "ab" run whose first iteration sees a
mismatching window "U", pauses, and then retries the same character. -/
theorem focus_loss_pauses_without_consuming_witness :
    focusStep envMismatch (some "T") = (true, [.focusPaused]) ∧ 0 < 1 ∧
    runLoop cfgPaced (fun n => if n = 0 then envMismatch else benignEnv)
        (some "T") 0 6 =
      some (.focusPaused :: ([Event.write ['a']] ++
        Event.progress (1 * 100 / cfgPaced.text.length) ::
          (delayEvents cfgPaced envMismatch ++
            [Event.write ['b'], .progress 100, .delay 50, .finished]))) :=
  focus_loss_pauses_without_consuming cfgPaced
    (fun n => if n = 0 then envMismatch else benignEnv) "T" 0 5 (some "U")
    [Event.write ['a']] [Event.write ['b'], .progress 100, .delay 50, .finished]
    1 (by decide) rfl rfl rfl rfl (by decide) rfl (by decide) rfl rfl
    rfl (by decide)

end DelayInput

namespace DelayInput

/-- C4 counterexample: with no primitive failure, `_type_char` emits a
newline via the literal write (`keyboard.write("\n")`), not via the
dedicated key-press primitive — the claim's primary/fallback direction
for newline (and tab) is the reverse of the code, which presses the
enter/tab key only when the literal write raises. -/
theorem typeChar_newline_primary_is_write :
    typeChar false none '\n' = .ok [.write ['\n']] ∧
    typeChar false none '\n' ≠ .ok [.press "enter"] := by
  refine ⟨rfl, ?_⟩
  intro h
  rw [show typeChar false none '\n' = .ok [.write ['\n']] from rfl] at h
  simp at h

/-- C4 as amended: `_type_char` emits newline and tab via the literal
write, falling back to the dedicated enter/tab key press when the write
raises; maps code point 8 to the backspace key press and code point 27
to the escape key press; silently skips every other character below
code point 32; and emits every character with code point at least 32
(multi-byte scripts and pictographs included) via the literal write. -/
theorem typeChar_mapping (kb : Bool) (pg : Option String) (ch : Char) :
    (ch = '\n' → kb = false → typeChar kb pg ch = .ok [.write ['\n']]) ∧
    (ch = '\n' → kb = true → pg = none → typeChar kb pg ch = .ok [.press "enter"]) ∧
    (ch = '\t' → kb = false → typeChar kb pg ch = .ok [.write ['\t']]) ∧
    (ch = '\t' → kb = true → pg = none → typeChar kb pg ch = .ok [.press "tab"]) ∧
    (ch.toNat = 8 → pg = none → typeChar kb pg ch = .ok [.press "backspace"]) ∧
    (ch.toNat = 27 → pg = none → typeChar kb pg ch = .ok [.press "esc"]) ∧
    (ch.toNat < 32 → ch.toNat ≠ 8 → ch.toNat ≠ 27 → ch ≠ '\n' → ch ≠ '\t' →
      typeChar kb pg ch = .ok []) ∧
    (32 ≤ ch.toNat → ch ≠ '\n' → ch ≠ '\t' → kb = false →
      typeChar kb pg ch = .ok [.write [ch]]) := by
  refine ⟨?_, ?_, ?_, ?_, ?_, ?_, ?_, ?_⟩
  · rintro rfl rfl
    rfl
  · rintro rfl rfl rfl
    rfl
  · rintro rfl rfl
    rfl
  · rintro rfl rfl rfl
    rfl
  · intro h8 hpg
    have hn : ch ≠ '\n' := fun h => by subst h; exact absurd h8 (by decide)
    have ht : ch ≠ '\t' := fun h => by subst h; exact absurd h8 (by decide)
    subst hpg
    simp [typeChar, hn, ht, h8]
  · intro h27 hpg
    have hn : ch ≠ '\n' := fun h => by subst h; exact absurd h27 (by decide)
    have ht : ch ≠ '\t' := fun h => by subst h; exact absurd h27 (by decide)
    subst hpg
    simp [typeChar, hn, ht, h27]
  · intro hlt h8 h27 hn ht
    simp [typeChar, hn, ht, hlt, h8, h27]
  · intro hge hn ht hkb
    simp [typeChar, hn, ht, Nat.not_lt.mpr hge, safeWrite, hkb]

/-- Witness for C4 over newline, tab fallback, backspace, escape, a skipped
control character, a CJK character and a pictograph. -/
theorem typeChar_mapping_witness :
    typeChar false none '\n' = .ok [.write ['\n']] ∧
    typeChar true none '\t' = .ok [.press "tab"] ∧
    typeChar false none (Char.ofNat 8) = .ok [.press "backspace"] ∧
    typeChar false none (Char.ofNat 27) = .ok [.press "esc"] ∧
    typeChar false none (Char.ofNat 1) = .ok [] ∧
    typeChar false none '中' = .ok [.write ['中']] ∧
    typeChar false none '😀' = .ok [.write ['😀']] :=
  ⟨(typeChar_mapping false none '\n').1 rfl rfl,
   (typeChar_mapping true none '\t').2.2.2.1 rfl rfl rfl,
   (typeChar_mapping false none (Char.ofNat 8)).2.2.2.2.1 (by decide) rfl,
   (typeChar_mapping false none (Char.ofNat 27)).2.2.2.2.2.1 (by decide) rfl,
   (typeChar_mapping false none (Char.ofNat 1)).2.2.2.2.2.2.1 (by decide)
     (by decide) (by decide) (by decide) (by decide),
   (typeChar_mapping false none '中').2.2.2.2.2.2.2 (by decide) (by decide)
     (by decide) rfl,
   (typeChar_mapping false none '😀').2.2.2.2.2.2.2 (by decide) (by decide)
     (by decide) rfl⟩

end DelayInput

namespace DelayInput

/-- C7: while a worker exists and the state is Paused, a resume attempt
whose foreground query raises, returns no window, or returns an empty
title leaves the whole session unchanged and produces the no-window
error status; a foreground equal to the tool's own title leaves it
unchanged with the self-focus error status; and the state becomes
Typing only for a valid non-self foreground title, in which case the
worker is retargeted to it and its pause flag is cleared. -/
theorem resume_guard (s : UiSession) (selfTitle : String) (query : FocusRes)
    (hp : s.state = .paused) (hw : s.hasWorker = true) :
    ((query = .fail ∨ query = .ret none ∨ query = .ret (some "")) →
      resumeTyping s selfTitle query = (s, .errNoWindow)) ∧
    (selfTitle ≠ "" → query = .ret (some selfTitle) →
      resumeTyping s selfTitle query = (s, .errSelfFocus)) ∧
    (∀ s' o, resumeTyping s selfTitle query = (s', o) → s'.state = .typing →
      ∃ w, query = .ret (some w) ∧ w ≠ "" ∧ w ≠ selfTitle ∧ o = .resumed ∧
        s' = { s with
                state := .typing, workerPaused := false,
                workerTarget := some w }) := by
  have hguard : (s.hasWorker && s.state == .paused) = true := by
    rw [hp, hw]
    rfl
  have hemp : ("" : String).isEmpty = true := by decide
  refine ⟨?_, ?_, ?_⟩
  · rintro (rfl | rfl | rfl)
    · simp [resumeTyping, hguard]
    · simp [resumeTyping, hguard]
    · simp [resumeTyping, hguard, hemp]
  · intro hne hq
    subst hq
    have hse : selfTitle.isEmpty = false := by
      cases hie : selfTitle.isEmpty
      · rfl
      · exact absurd ((String.isEmpty_iff selfTitle).mp hie) hne
    simp [resumeTyping, hguard, hse]
  · intro s' o h hst
    rcases query with _ | t
    · rw [show resumeTyping s selfTitle .fail = (s, .errNoWindow) from by
        simp [resumeTyping, hguard]] at h
      simp only [Prod.mk.injEq] at h
      obtain ⟨rfl, rfl⟩ := h
      rw [hp] at hst
      simp at hst
    · rcases t with _ | w
      · rw [show resumeTyping s selfTitle (.ret none) = (s, .errNoWindow) from by
          simp [resumeTyping, hguard]] at h
        simp only [Prod.mk.injEq] at h
        obtain ⟨rfl, rfl⟩ := h
        rw [hp] at hst
        simp at hst
      · by_cases hie : w.isEmpty = true
        · rw [show resumeTyping s selfTitle (.ret (some w)) = (s, .errNoWindow)
            from by simp [resumeTyping, hguard, hie]] at h
          simp only [Prod.mk.injEq] at h
          obtain ⟨rfl, rfl⟩ := h
          rw [hp] at hst
          simp at hst
        · have hie' : w.isEmpty = false := Bool.eq_false_iff.mpr hie
          by_cases hbe : (w == selfTitle) = true
          · rw [show resumeTyping s selfTitle (.ret (some w)) =
                (s, .errSelfFocus) from by
              simp [resumeTyping, hguard, hie', hbe]] at h
            simp only [Prod.mk.injEq] at h
            obtain ⟨rfl, rfl⟩ := h
            rw [hp] at hst
            simp at hst
          · have hbe' : (w == selfTitle) = false := Bool.eq_false_iff.mpr hbe
            rw [show resumeTyping s selfTitle (.ret (some w)) =
                ({ s with
                    state := .typing, workerPaused := false,
                    workerTarget := some w }, .resumed) from by
              simp [resumeTyping, hguard, hie', hbe']] at h
            simp only [Prod.mk.injEq] at h
            obtain ⟨rfl, rfl⟩ := h
            refine ⟨w, rfl, ?_, ?_, rfl, rfl⟩
            · intro hwe
              subst hwe
              rw [hemp] at hie'
              cases hie'
            · intro hws
              subst hws
              simp at hbe'

/-- Witness for C7: a paused session with a worker, under tool title
"Me". -/
theorem resume_guard_witness :
    resumeTyping ⟨.paused, true, true, some "Old"⟩ "Me" .fail =
      (⟨.paused, true, true, some "Old"⟩, .errNoWindow) ∧
    resumeTyping ⟨.paused, true, true, some "Old"⟩ "Me" (.ret (some "Me")) =
      (⟨.paused, true, true, some "Old"⟩, .errSelfFocus) :=
  ⟨(resume_guard ⟨.paused, true, true, some "Old"⟩ "Me" .fail rfl rfl).1
      (.inl rfl),
   (resume_guard ⟨.paused, true, true, some "Old"⟩ "Me" (.ret (some "Me"))
      rfl rfl).2.1 (by decide) rfl⟩

end DelayInput

namespace DelayInput

/-- C8 counterexample: the committed sequence "Ctrl+F25" is accepted and
replaces the binding with "ctrl+f25", although its last token is
neither a single character nor an F1–F24 function key — the code
accepts any `f`-plus-digits token, not only F1–F24. -/
theorem hotkey_accepts_f25 :
    onHotkeyCommitted "Ctrl+F25".toList true "ctrl+shift+t".toList =
      some "ctrl+f25".toList ∧
    ¬("F25".toList.length = 1 ∨ isClaimFKey "F25".toList = true) := by
  constructor
  · decide
  · decide

/-- C8 as amended: a commit with no captured main key is rejected; a commit
is accepted (binding replaced) only when the stripped sequence has at
least two tokens, its lowered first token is among ctrl/control/shift/
alt, its last token is a single character or an `f`/`F` followed by one
or more digits (unbounded, not only F1–F24), and the canonicalised
sequence differs from the current binding; every rejection (including
the modifier-only "Shift") leaves the prior binding unchanged. -/
theorem hotkey_validation (seq : List Char) (hmk : Bool) (cur : List Char) :
    (hmk = false → onHotkeyCommitted seq hmk cur = none) ∧
    (∀ c, onHotkeyCommitted seq hmk cur = some c →
      hmk = true ∧ 2 ≤ (hotkeyParts (pyStrip seq)).length ∧
      isModTok (toLowerL ((hotkeyParts (pyStrip seq)).headD [])) = true ∧
      (((hotkeyParts (pyStrip seq)).getLastD []).length = 1 ∨
        isFKeyToken ((hotkeyParts (pyStrip seq)).getLastD []) = true) ∧
      c = canonicalizeSequence (pyStrip seq) ∧ c ≠ cur) ∧
    (∀ b, onHotkeyCommitted "Shift".toList b cur = none) := by
  refine ⟨?_, ?_, ?_⟩
  · intro hf
    simp [onHotkeyCommitted, hf]
  · intro c h
    unfold onHotkeyCommitted at h
    split at h
    · cases h
    · next h1 =>
      split at h
      · cases h
      · next h2 =>
        split at h
        · cases h
        · next h3 =>
          split at h
          · cases h
          · next h4 =>
            split at h
            · cases h
            · next h5 =>
              injection h with h
              subst h
              have hmkt : hmk = true := by
                cases hmk
                · exact absurd (by simp) h1
                · rfl
              simp only [Bool.not_eq_true', Bool.not_eq_false] at h3
              simp only [Bool.or_eq_true, Bool.not_eq_true',
                Bool.not_eq_false, decide_eq_true_eq] at h4
              exact ⟨hmkt, Nat.not_lt.mp h2, h3, h4, rfl, h5⟩
  · intro b
    cases b
    · have h1 : ((pyStrip "Shift".toList).isEmpty || !false) = true := by decide
      unfold onHotkeyCommitted
      rw [if_pos h1]
    · have h1 : ¬ (((pyStrip "Shift".toList).isEmpty || !true) = true) := by
        decide
      have h2 : (hotkeyParts (pyStrip "Shift".toList)).length < 2 := by decide
      unfold onHotkeyCommitted
      rw [if_neg h1, if_pos h2]

/-- Witness for C8: "Shift" alone is rejected, "Ctrl+K" is accepted and
canonicalised to "ctrl+k". -/
theorem hotkey_validation_witness :
    onHotkeyCommitted "Shift".toList true "ctrl+shift+t".toList = none ∧
    (true = true ∧ 2 ≤ (hotkeyParts (pyStrip "Ctrl+K".toList)).length ∧
      isModTok (toLowerL ((hotkeyParts (pyStrip "Ctrl+K".toList)).headD [])) =
        true ∧
      (((hotkeyParts (pyStrip "Ctrl+K".toList)).getLastD []).length = 1 ∨
        isFKeyToken ((hotkeyParts (pyStrip "Ctrl+K".toList)).getLastD []) =
          true) ∧
      "ctrl+k".toList = canonicalizeSequence (pyStrip "Ctrl+K".toList) ∧
      "ctrl+k".toList ≠ "ctrl+shift+t".toList) :=
  ⟨(hotkey_validation "Shift".toList true "ctrl+shift+t".toList).2.2 true,
   (hotkey_validation "Ctrl+K".toList true "ctrl+shift+t".toList).2.1
     "ctrl+k".toList (by decide)⟩

/-- C9 counterexample: with target "T" and clear flags, a raising focus
query leaves the pause flag unset and emits nothing, while a query
returning no target pauses and emits the focus-lost notification — the
re-check does not treat query failure like "no target". -/
theorem checkFocus_failure_not_no_target :
    checkFocus (some "T") false false .fail = (false, []) ∧
    checkFocus (some "T") false false (.ret none) = (true, [.focusPaused]) ∧
    ((false, ([] : List Event)) ≠ (true, [Event.focusPaused])) := by
  refine ⟨by decide, by decide, by decide⟩

/-- C9 as amended: during the per-unit re-check a raising foreground query
makes `_check_focus` return with no effect at all — the pause flag
keeps its prior value and nothing is emitted, so emission continues;
only a successfully retrieved empty or mismatching title pauses the
worker and emits the focus-lost notification. -/
theorem checkFocus_failure_skips (target : Option String) (sf pf : Bool)
    (f : Option String) :
    checkFocus target sf pf .fail = (pf, []) ∧
    (optFalsy target = false → sf = false → pf = false →
      (optFalsy f || f != target) = true →
      checkFocus target sf pf (.ret f) = (true, [.focusPaused])) ∧
    (optFalsy target = false → sf = false → pf = false →
      optFalsy f = false → f = target →
      checkFocus target sf pf (.ret f) = (pf, [])) := by
  refine ⟨?_, ?_, ?_⟩
  · unfold checkFocus
    split
    · rfl
    · rfl
  · intro h1 h2 h3 h4
    unfold checkFocus
    rw [h1, h2, h3]
    simp [h4]
  · intro h1 h2 h3 h4 h5
    subst h5
    unfold checkFocus
    rw [h1, h2, h3]
    simp [h4]

/-- Witness for C9: target "T", a raising query, a mismatching title "U",
and the matching title "T". -/
theorem checkFocus_failure_skips_witness :
    checkFocus (some "T") false false .fail = (false, []) ∧
    checkFocus (some "T") false false (.ret (some "U")) =
      (true, [.focusPaused]) ∧
    checkFocus (some "T") false false (.ret (some "T")) = (false, []) :=
  ⟨(checkFocus_failure_skips (some "T") false false (some "U")).1,
   (checkFocus_failure_skips (some "T") false false (some "U")).2.1
     (by decide) rfl rfl (by decide),
   (checkFocus_failure_skips (some "T") false false (some "T")).2.2
     (by decide) rfl rfl (by decide) rfl⟩

end DelayInput
